import Mathlib

/-!
Verification of the score-extraction engine of `app.py` (functions
`_norm`, `_norm_name`, `_safe_number`, `_find_header_row`,
`_find_preferred_total_index`, `find_score_by_surname`, and the
per-source aggregation loop of `api_scores`).

Strings are modelled as Lean `String`/`List Char`; Python floats are
modelled as exact rationals (`ℚ`), so decimal parsing and summation are
exact; IEEE rounding of individual decimal literals is not modelled.
Unicode NFKC normalization is modelled on the character repertoire this
pipeline actually compares (Cyrillic and Latin letters, digits, ASCII
punctuation and whitespace, U+00A0), where the only non-identity
compatibility mapping relevant to the code's behavior is U+00A0 → space.
-/

namespace DedlinesApp

/-- Python `str.isspace` / regex `\s` on the modelled repertoire:
ASCII whitespace and U+00A0 (non-breaking space). -/
def isSpace (c : Char) : Bool :=
  c.toNat == 32 || c.toNat == 9 || c.toNat == 10 || c.toNat == 13 ||
  c.toNat == 11 || c.toNat == 12 || c.toNat == 160

/-- Modelled fragment of Unicode NFKC (`unicodedata.normalize("NFKC", s)`):
identity on the modelled repertoire except the compatibility mapping
U+00A0 (non-breaking space) → U+0020 (space). -/
def nfkcChar (c : Char) : Char :=
  if c.toNat == 160 then ' ' else c

/-- The explicit `s.replace("\xa0", " ")` step of `_norm`. -/
def replNbsp (c : Char) : Char :=
  if c.toNat == 160 then ' ' else c

/-- Python `str.lower` on the modelled repertoire: ASCII `A`–`Z`,
Cyrillic `А`–`Я` (U+0410–U+042F, lowercased by adding 32) and
`Ё` (U+0401 → U+0451); identity elsewhere. -/
def pyLower (c : Char) : Char :=
  if 65 ≤ c.toNat ∧ c.toNat ≤ 90 then Char.ofNat (c.toNat + 32)
  else if 1040 ≤ c.toNat ∧ c.toNat ≤ 1071 then Char.ofNat (c.toNat + 32)
  else if c.toNat = 1025 then Char.ofNat 1105
  else c

/-- Python `str.strip()`: drop leading and trailing whitespace. -/
def pyStrip (l : List Char) : List Char :=
  ((l.dropWhile isSpace).reverse.dropWhile isSpace).reverse

/-- Python `re.sub(r"\s+", " ", s)`: replace every maximal run of
whitespace characters by a single space. -/
def collapseWS : List Char → List Char
  | [] => []
  | c :: rest =>
    match rest with
    | [] => if isSpace c then [' '] else [c]
    | c2 :: _ =>
      if isSpace c then
        if isSpace c2 then collapseWS rest
        else ' ' :: collapseWS rest
      else c :: collapseWS rest

/-- Python substring test `pat in s` (contiguous substring). -/
def pySubstr (pat : List Char) : List Char → Bool
  | [] => pat.isEmpty
  | c :: rest => pat.isPrefixOf (c :: rest) || pySubstr pat rest

/-- `_norm` (app.py): NFKC-normalize, replace non-breaking spaces,
strip, lower-case, collapse whitespace runs to single spaces. -/
def _norm (s : String) : String :=
  String.mk (collapseWS (List.map pyLower
    (pyStrip (List.map replNbsp (List.map nfkcChar s.data)))))

/-- Cell keep-predicate of `_norm_name`: `"а" <= ch <= "я" or ch == " "`. -/
def keepCh (c : Char) : Bool :=
  decide (('а' ≤ c ∧ c ≤ 'я') ∨ c = ' ')

/-- The `"ё" → "е"` fold of `_norm_name`. -/
def foldYo (c : Char) : Char :=
  if c = 'ё' then 'е' else c

/-- `_norm_name` (app.py): `_norm`, fold `ё` to `е`, keep only Cyrillic
`а`–`я` and spaces, re-collapse whitespace, strip. -/
def _norm_name (s : String) : String :=
  String.mk (pyStrip (collapseWS (List.filter keepCh
    (List.map foldYo (_norm s).data))))

/-! ### Numeric cell parser (`_safe_number`) -/

/-- Result of Python `float(str)`: a finite value (modelled exactly as a
rational), an infinity, or a NaN. -/
inductive PyFloat where
  | finite (q : ℚ)
  | inf
  | neginf
  | nan
deriving DecidableEq

/-- Value of an ASCII digit, if `c` is one. -/
def digitVal (c : Char) : Option Nat :=
  if 48 ≤ c.toNat ∧ c.toNat ≤ 57 then some (c.toNat - 48) else none

/-- Parse a Python digit run (underscores allowed between digits):
returns the accumulated value, the digit count, and the rest. -/
def digitsAux : List Char → Nat → Nat → Nat × Nat × List Char
  | [], acc, k => (acc, k, [])
  | c :: rest, acc, k =>
    match digitVal c with
    | some d => digitsAux rest (acc * 10 + d) (k + 1)
    | none =>
      if c = '_' ∧ k ≠ 0 then
        match rest with
        | c2 :: rest2 =>
          match digitVal c2 with
          | some d => digitsAux rest2 (acc * 10 + d) (k + 1)
          | none => (acc, k, c :: rest)
        | [] => (acc, k, [c])
      else (acc, k, c :: rest)

/-- Parse an unsigned Python float mantissa `digits[.digits]` / `.digits`
(at least one digit); returns the exact rational value and the rest. -/
def parseMantissa (l : List Char) : Option (ℚ × List Char) :=
  match digitsAux l 0 0 with
  | (ip, ki, r1) =>
    match r1 with
    | '.' :: r2 =>
      match digitsAux r2 0 0 with
      | (fp, kf, r3) =>
        if ki + kf = 0 then none
        else some ((ip : ℚ) + (fp : ℚ) / ((10 : ℚ) ^ kf), r3)
    | _ => if ki = 0 then none else some ((ip : ℚ), r1)

/-- Parse an optional exponent `[eE][+-]?digits`; returns the signed
exponent and the rest (`none` when a started exponent is malformed). -/
def parseExp (l : List Char) : Option (Int × List Char) :=
  match l with
  | 'e' :: r | 'E' :: r =>
    let (sgn, r1) : Int × List Char :=
      match r with
      | '+' :: t => (1, t)
      | '-' :: t => (-1, t)
      | _ => (1, r)
    match digitsAux r1 0 0 with
    | (e, ke, r2) => if ke = 0 then none else some (sgn * (e : Int), r2)
  | _ => some (0, l)

/-- Python `float(str)` on a character list: optional surrounding
whitespace and sign, then `inf`/`infinity`/`nan` (case-insensitive) or a
decimal mantissa with optional exponent. -/
def pyFloatOfList (l : List Char) : Option PyFloat :=
  let l1 := pyStrip l
  let (neg, l2) : Bool × List Char :=
    match l1 with
    | '+' :: t => (false, t)
    | '-' :: t => (true, t)
    | _ => (false, l1)
  let low := l2.map pyLower
  if low = "inf".data ∨ low = "infinity".data then
    some (if neg then PyFloat.neginf else PyFloat.inf)
  else if low = "nan".data then
    some PyFloat.nan
  else
    match parseMantissa l2 with
    | none => none
    | some (m, r1) =>
      match parseExp r1 with
      | none => none
      | some (e, r2) =>
        if r2 = [] then
          some (PyFloat.finite ((if neg then -m else m) * (10 : ℚ) ^ e))
        else none

/-- `_safe_number` (app.py): strip, replace `,` with `.`, parse as a
float; `None` when parsing fails, the value is non-finite, or its
magnitude is at least 100000. -/
def _safe_number (cell : String) : Option ℚ :=
  let s := (pyStrip cell.data).map (fun c => if c = ',' then '.' else c)
  match pyFloatOfList s with
  | some (PyFloat.finite v) => if |v| ≥ 100000 then none else some v
  | _ => none

/-! ### Header locator (`_find_header_row`) -/

/-- Python word character (regex `\w`) on the modelled repertoire:
ASCII alphanumerics, underscore, and the Cyrillic block U+0400–U+04FF. -/
def isWordChar (c : Char) : Bool :=
  (48 ≤ c.toNat && c.toNat ≤ 57) || (65 ≤ c.toNat && c.toNat ≤ 90) ||
  (97 ≤ c.toNat && c.toNat ≤ 122) || c.toNat == 95 ||
  (1024 ≤ c.toNat && c.toNat ≤ 1279)

/-- Does `лр`, optional whitespace, then a digit match at the head of `l`? -/
def labAt (l : List Char) : Bool :=
  match l with
  | 'л' :: 'р' :: rest =>
    match rest.dropWhile isSpace with
    | c :: _ => (digitVal c).isSome
    | [] => false
  | _ => false

/-- Search for `\bлр\s*\d+` from a position whose preceding character is
`prev` (`none` at the string start). -/
def labSearch (prev : Option Char) : List Char → Bool
  | [] => false
  | c :: rest =>
    ((match prev with
      | none => true
      | some p => !isWordChar p) && labAt (c :: rest)) ||
    labSearch (some c) rest

/-- Python `re.search(r"\bлр\s*\d+", s)` as a Boolean. -/
def hasLabMarker (l : List Char) : Bool :=
  labSearch none l

/-- The per-row header heuristic of `_find_header_row`: empty rows are
skipped; otherwise the row is a header when (a) its first normalized
cell contains `фио`, `студент` or `фамилия`, (b) some normalized cell
contains `итог` or `total`, or (c) some normalized cell matches
`\bлр\s*\d+`. -/
def headerPred (row : List String) : Bool :=
  if row = [] then false
  else
    let n := row.map _norm
    let n0 := (n.headD "").data
    (pySubstr "фио".data n0 || pySubstr "студент".data n0 ||
       pySubstr "фамилия".data n0) ||
    n.any (fun c => pySubstr "итог".data c.data || pySubstr "total".data c.data) ||
    n.any (fun c => hasLabMarker c.data)

/-- Does the row contain a cell with non-whitespace content
(`(c or "").strip()` truthy)? -/
def rowNonblank (row : List String) : Bool :=
  row.any (fun c => !(pyStrip c.data).isEmpty)

/-- Index (counting from `i0`) of the first element satisfying `p`. -/
def findFirstIdx (p : List String → Bool) : List (List String) → Nat → Option Nat
  | [], _ => none
  | r :: rs, i => if p r then some i else findFirstIdx p rs (i + 1)

/-- `_find_header_row` (app.py): first of the first 10 rows matching the
header heuristic; else the first row with a non-blank cell; else 0. -/
def _find_header_row (rows : List (List String)) : Nat :=
  match findFirstIdx headerPred (rows.take 10) 0 with
  | some i => i
  | none =>
    match findFirstIdx rowNonblank rows 0 with
    | some i => i
    | none => 0

/-! ### Total-column locator (`_find_preferred_total_index`) -/

/-- Does the whole list match `итог\s*\([^)]*\)`? -/
def itogParen (l : List Char) : Bool :=
  match l with
  | 'и' :: 'т' :: 'о' :: 'г' :: rest =>
    match rest.dropWhile isSpace with
    | '(' :: inner => closeParen inner
    | _ => false
  | _ => false
where
  /-- Does the list consist of non-`)` characters followed by a final `)`? -/
  closeParen : List Char → Bool
    | [] => false
    | [c] => c = ')'
    | c :: rest => c ≠ ')' && closeParen rest

/-- Does `pat` occur as a prefix of `l`? (Python `str.startswith`.) -/
def beginsWith : List Char → List Char → Bool
  | [], _ => true
  | _ :: _, [] => false
  | p :: ps, c :: cs => p = c && beginsWith ps cs

/-- Specificity rank of a header cell in `_find_preferred_total_index`:
`none` for a blank or unrelated cell; 1 for exactly `итог`, `total`, or
`итог (…)`; 2 for a cell starting with `итог ` or `total `; 3 for a cell
merely containing `итог` or `total`. -/
def cellRank (h : String) : Option Nat :=
  let hj := _norm h
  if hj = "" then none
  else if hj = "итог" ∨ itogParen hj.data ∨ hj = "total" then some 1
  else if beginsWith "итог ".data hj.data ∨ beginsWith "total ".data hj.data then
    some 2
  else if pySubstr "итог".data hj.data ∨ pySubstr "total".data hj.data then
    some 3
  else none

/-- The `ranks` list of `_find_preferred_total_index`: `(rank, index)`
pairs in column order, starting at index `j0`. -/
def ranksOf : List String → Nat → List (Nat × Nat)
  | [], _ => []
  | h :: t, j =>
    match cellRank h with
    | some r => (r, j) :: ranksOf t (j + 1)
    | none => ranksOf t (j + 1)

/-- `_find_preferred_total_index` (app.py): collect `(rank, index)` for
every matching header cell, keep the lowest rank present, and return the
highest index among its ties; `none` when nothing matches. -/
def _find_preferred_total_index (headers : List String) : Option Nat :=
  if headers = [] then none
  else
    match ranksOf headers 0 with
    | [] => none
    | (r0, j0) :: rest =>
      let best := rest.foldl (fun a p => min a p.1) r0
      let cands := (((r0, j0) :: rest).filter (fun p => p.1 == best)).map Prod.snd
      some (cands.foldl max 0)

/-! ### Strategy selector and extraction (`find_score_by_surname`) -/

/-- Python `round(x, 3)` modelled on exact rationals: round half to even
at three decimal places. -/
def round3 (q : ℚ) : ℚ :=
  (roundHalfEven (q * 1000) : ℚ) / 1000
where
  /-- Round a rational to the nearest integer, halves to even. -/
  roundHalfEven (x : ℚ) : ℤ :=
    let n := Int.floor x
    let r := x - (n : ℚ)
    if r < 1 / 2 then n
    else if 1 / 2 < r then n + 1
    else if n % 2 = 0 then n else n + 1

/-- The return value of `find_score_by_surname`:
`{"sum": …, "values": […], "row": […]}`. -/
structure ScoreResult where
  sum : ℚ
  values : List ℚ
  row : List String
deriving DecidableEq

/-- `" ".join((c or "") for c in row)`. -/
def joinRow (row : List String) : String :=
  String.intercalate " " row

/-- The row-matching loop of `find_score_by_surname`: scan rows from
index `i`, skip empty rows, and return the first (index, row) whose
space-joined strict-normalized text contains the non-empty `target`. -/
def matchRowFrom (target : String) : List (List String) → Nat → Option (Nat × List String)
  | [], _ => none
  | row :: rest, i =>
    if row = [] then matchRowFrom target rest (i + 1)
    else if target ≠ "" ∧ pySubstr target.data (_norm_name (joinRow row)).data
    then some (i, row)
    else matchRowFrom target rest (i + 1)

/-- The `take_last_total` scan: the value of the last cell of the row
that parses as a number. -/
def lastNumeric : List String → Option ℚ
  | [] => none
  | c :: t =>
    match lastNumeric t with
    | some v => some v
    | none => _safe_number c

/-- The `_sum_left_until_total` closure: parse every cell with index
below `min stop (length row)`, keep the parsable ones in order, and
return their 3-decimal-rounded sum. -/
def sumLeftUntilTotal (row : List String) (stop : Nat) : ScoreResult :=
  let vals := (row.take (min stop row.length)).filterMap _safe_number
  ⟨round3 vals.sum, vals, row⟩

/-- The `headers` local of `find_score_by_surname`:
`rows[hdr_idx] if hdr_idx < len(rows) else []`. -/
def headersOf (rows : List (List String)) : List String :=
  if _find_header_row rows < rows.length then rows.getD (_find_header_row rows) []
  else []

/-- The `stop_at` local of `find_score_by_surname`: the preferred total
index if found, else the header length, else the `10**9` sentinel. -/
def stopAt (rows : List (List String)) : Nat :=
  match _find_preferred_total_index (headersOf rows) with
  | some j => j
  | none => if headersOf rows = [] then 1000000000 else (headersOf rows).length

/-- `find_score_by_surname` (app.py): locate the header row and the
preferred total column, match the target row by normalized-substring
search, then apply the configured strategy (`take_last_total`, then
`prefer_total`, then `sum_until_total`, with the default equal to
`sum_until_total`). -/
def find_score_by_surname (rows : List (List String)) (surname : String)
    (prefer_total : Bool := false) (sum_until_total : Bool := false)
    (take_last_total : Bool := false) : Option ScoreResult :=
  if rows = [] then none
  else
    let total_idx := _find_preferred_total_index (headersOf rows)
    let target := _norm_name surname
    match matchRowFrom target (rows.drop (_find_header_row rows + 1))
        (_find_header_row rows + 1) with
    | none => none
    | some (_, row) =>
      if take_last_total then
        match lastNumeric row with
        | some v => some ⟨v, [v], row⟩
        | none => none
      else if prefer_total ∧ ∃ tj, total_idx = some tj ∧ tj < row.length then
        match _safe_number (row.getD (total_idx.getD 0) "") with
        | some v => some ⟨v, [v], row⟩
        | none => some (sumLeftUntilTotal row (stopAt rows))
      else if sum_until_total then some (sumLeftUntilTotal row (stopAt rows))
      else some (sumLeftUntilTotal row (stopAt rows))

/-! ### Per-source aggregation (`api_scores`) -/

/-- Per-source configuration of a `SHEETS` entry (the strategy flags). -/
structure SheetCfg where
  name : String
  prefer_total : Bool := false
  sum_until_total : Bool := false
  take_last_total : Bool := false
deriving DecidableEq

/-- One entry of the `results` list built by `api_scores`. -/
structure ScoreItem where
  name : String
  score : Option ℚ
  ok : Bool
  err : Option String
deriving DecidableEq

/-- The body of the per-sheet loop of `api_scores`. The URL fetch is an
external collaborator, so its outcome (a grid, or the raised exception's
message) is passed in as a value; the `except` branch of the loop is the
`Except.error` case. -/
def scoreEntry (surname : String) (sheet : SheetCfg)
    (fetch : Except String (List (List String))) : ScoreItem :=
  match fetch with
  | Except.error e => ⟨sheet.name, none, false, some e⟩
  | Except.ok rows =>
    match find_score_by_surname rows surname sheet.prefer_total
        sheet.sum_until_total sheet.take_last_total with
    | some found => ⟨sheet.name, some (round3 found.sum), true, none⟩
    | none => ⟨sheet.name, none, false, none⟩

/-- The aggregation loop of `api_scores`: one entry per configured sheet,
in order, each computed from that sheet's own fetch outcome. -/
def api_scores (surname : String) (sheets : List SheetCfg)
    (fetches : List (Except String (List (List String)))) : List ScoreItem :=
  List.zipWith (scoreEntry surname) sheets fetches

/-! ### Auxiliary predicates used by the proofs -/

/-- Whitespace-canonical form: every whitespace character is a plain
space, and no two adjacent characters are both whitespace. -/
def WsOk (l : List Char) : Prop :=
  (∀ c ∈ l, isSpace c = true → c = ' ') ∧
  l.Chain' (fun a b => ¬(isSpace a = true ∧ isSpace b = true))

/-! ### Character-level lemmas -/

theorem char_le_iff_toNat {a b : Char} : a ≤ b ↔ a.toNat ≤ b.toNat := by
  simp [Char.le_def, UInt32.le_def, BitVec.le_def, Char.toNat, UInt32.toNat]

theorem char_toNat_ofNat {n : Nat} (h : n < 55296) : (Char.ofNat n).toNat = n := by
  have hv : n.isValidChar := Or.inl h
  simp [Char.ofNat, hv, Char.ofNatAux, Char.toNat, UInt32.toNat]

theorem char_eq_iff_toNat {a b : Char} : a = b ↔ a.toNat = b.toNat := by
  constructor
  · rintro rfl; rfl
  · intro h
    exact Char.eq_of_val_eq (UInt32.toNat.inj h)

theorem isSpace_iff {c : Char} :
    isSpace c = true ↔
      c.toNat = 32 ∨ c.toNat = 9 ∨ c.toNat = 10 ∨ c.toNat = 13 ∨
      c.toNat = 11 ∨ c.toNat = 12 ∨ c.toNat = 160 := by
  simp [isSpace]
  omega

theorem pyLower_toNat (c : Char) :
    (pyLower c).toNat =
      if 65 ≤ c.toNat ∧ c.toNat ≤ 90 then c.toNat + 32
      else if 1040 ≤ c.toNat ∧ c.toNat ≤ 1071 then c.toNat + 32
      else if c.toNat = 1025 then 1105
      else c.toNat := by
  unfold pyLower
  split
  · next h => exact char_toNat_ofNat (by omega)
  · split
    · next h2 => exact char_toNat_ofNat (by omega)
    · split
      · next h3 => exact char_toNat_ofNat (by omega)
      · rfl

theorem pyLower_eq_self {c : Char} (h1 : ¬(65 ≤ c.toNat ∧ c.toNat ≤ 90))
    (h2 : ¬(1040 ≤ c.toNat ∧ c.toNat ≤ 1071)) (h3 : c.toNat ≠ 1025) :
    pyLower c = c := by
  simp [pyLower, h1, h2, h3]

theorem pyLower_idem (c : Char) : pyLower (pyLower c) = pyLower c := by
  have h := pyLower_toNat c
  apply pyLower_eq_self <;> rw [h] <;> split <;> try split <;> try split
  all_goals omega

theorem isSpace_pyLower (c : Char) : isSpace (pyLower c) = isSpace c := by
  have h := pyLower_toNat c
  rw [Bool.eq_iff_iff, isSpace_iff, isSpace_iff, h]
  split <;> try split <;> try split
  all_goals omega

theorem pyLower_toNat_ne_160 {c : Char} (h : c.toNat ≠ 160) :
    (pyLower c).toNat ≠ 160 := by
  rw [pyLower_toNat]
  split <;> try split <;> try split
  all_goals omega

theorem nfkcChar_eq_self {c : Char} (h : c.toNat ≠ 160) : nfkcChar c = c := by
  simp [nfkcChar, h]

theorem replNbsp_eq_self {c : Char} (h : c.toNat ≠ 160) : replNbsp c = c := by
  simp [replNbsp, h]

theorem replNbsp_nfkc_toNat_ne_160 (c : Char) :
    (replNbsp (nfkcChar c)).toNat ≠ 160 := by
  by_cases h : c.toNat = 160
  · simp [nfkcChar, replNbsp, h]
  · simp [nfkcChar, replNbsp, h]

theorem keepCh_iff {c : Char} :
    keepCh c = true ↔ (1072 ≤ c.toNat ∧ c.toNat ≤ 1103) ∨ c.toNat = 32 := by
  have ha : ('а').toNat = 1072 := rfl
  have hb : ('я').toNat = 1103 := rfl
  have hs : (' ').toNat = 32 := rfl
  simp only [keepCh, decide_eq_true_eq, char_le_iff_toNat, char_eq_iff_toNat,
    ha, hb, hs]

theorem foldYo_eq_self {c : Char} (h : c.toNat ≠ 1105) : foldYo c = c := by
  have : ¬(c = 'ё') := by
    intro he; apply h; rw [he]; rfl
  simp [foldYo, this]

/-! ### Whitespace collapsing and stripping -/

theorem collapseWS_cons_not_space {c : Char} {rest : List Char}
    (h : isSpace c = false) : collapseWS (c :: rest) = c :: collapseWS rest := by
  cases rest <;> simp [collapseWS, h]

theorem collapseWS_singleton_space {c : Char} (h : isSpace c = true) :
    collapseWS [c] = [' '] := by
  simp [collapseWS, h]

theorem collapseWS_cons_cons_both {c c2 : Char} {rest : List Char}
    (h : isSpace c = true) (h2 : isSpace c2 = true) :
    collapseWS (c :: c2 :: rest) = collapseWS (c2 :: rest) := by
  simp [collapseWS, h, h2]

theorem collapseWS_cons_cons_first {c c2 : Char} {rest : List Char}
    (h : isSpace c = true) (h2 : isSpace c2 = false) :
    collapseWS (c :: c2 :: rest) = ' ' :: collapseWS (c2 :: rest) := by
  simp [collapseWS, h, h2]

theorem mem_collapseWS {c : Char} : ∀ {l : List Char},
    c ∈ collapseWS l → c ∈ l ∨ c = ' '
  | [], h => by simp [collapseWS] at h
  | [c1], h => by
    by_cases hs : isSpace c1 = true
    · rw [collapseWS_singleton_space hs] at h
      simp at h
      exact Or.inr h
    · rw [collapseWS_cons_not_space (by simpa using hs)] at h
      simp [collapseWS] at h
      exact Or.inl (by simp [h])
  | c1 :: c2 :: t, h => by
    by_cases h1 : isSpace c1 = true
    · by_cases h2 : isSpace c2 = true
      · rw [collapseWS_cons_cons_both h1 h2] at h
        rcases mem_collapseWS h with h' | h'
        · exact Or.inl (List.mem_cons_of_mem _ h')
        · exact Or.inr h'
      · rw [collapseWS_cons_cons_first h1 (by simpa using h2)] at h
        rcases List.mem_cons.mp h with h' | h'
        · exact Or.inr h'
        · rcases mem_collapseWS h' with h'' | h''
          · exact Or.inl (List.mem_cons_of_mem _ h'')
          · exact Or.inr h''
    · rw [collapseWS_cons_not_space (by simpa using h1)] at h
      rcases List.mem_cons.mp h with h' | h'
      · exact Or.inl (by simp [h'])
      · rcases mem_collapseWS h' with h'' | h''
        · exact Or.inl (List.mem_cons_of_mem _ h'')
        · exact Or.inr h''

theorem head?_collapseWS : ∀ (l : List Char),
    (collapseWS l).head? = l.head?.map (fun c => if isSpace c then ' ' else c)
  | [] => rfl
  | [c1] => by
    by_cases hs : isSpace c1 = true
    · rw [collapseWS_singleton_space hs]; simp [hs]
    · rw [collapseWS_cons_not_space (by simpa using hs)]; simp [hs]
  | c1 :: c2 :: t => by
    by_cases h1 : isSpace c1 = true
    · by_cases h2 : isSpace c2 = true
      · rw [collapseWS_cons_cons_both h1 h2, head?_collapseWS (c2 :: t)]
        simp [h1, h2]
      · rw [collapseWS_cons_cons_first h1 (by simpa using h2)]
        simp [h1]
    · rw [collapseWS_cons_not_space (by simpa using h1)]
      simp [h1]

theorem getLast?_collapseWS : ∀ (l : List Char),
    (collapseWS l).getLast? = l.getLast?.map (fun c => if isSpace c then ' ' else c)
  | [] => rfl
  | [c1] => by
    by_cases hs : isSpace c1 = true
    · rw [collapseWS_singleton_space hs]; simp [hs]
    · rw [collapseWS_cons_not_space (by simpa using hs)]; simp [collapseWS, hs]
  | c1 :: c2 :: t => by
    have hne : collapseWS (c2 :: t) ≠ [] := by
      intro he
      have := head?_collapseWS (c2 :: t)
      rw [he] at this
      simp at this
    obtain ⟨y, M, hM⟩ : ∃ y M, collapseWS (c2 :: t) = y :: M := by
      cases hx : collapseWS (c2 :: t) with
      | nil => exact absurd hx hne
      | cons y M => exact ⟨y, M, rfl⟩
    by_cases h1 : isSpace c1 = true
    · by_cases h2 : isSpace c2 = true
      · rw [collapseWS_cons_cons_both h1 h2, getLast?_collapseWS (c2 :: t)]
        simp
      · rw [collapseWS_cons_cons_first h1 (by simpa using h2), hM,
          List.getLast?_cons_cons, ← hM, getLast?_collapseWS (c2 :: t)]
        simp
    · rw [collapseWS_cons_not_space (by simpa using h1), hM,
        List.getLast?_cons_cons, ← hM, getLast?_collapseWS (c2 :: t)]
      simp

theorem wsOk_collapseWS : ∀ (l : List Char), WsOk (collapseWS l)
  | [] => ⟨by simp [collapseWS], by simp [collapseWS]⟩
  | [c1] => by
    by_cases hs : isSpace c1 = true
    · rw [collapseWS_singleton_space hs]
      exact ⟨by simp, by simp⟩
    · rw [collapseWS_cons_not_space (by simpa using hs)]
      exact ⟨by simp [collapseWS, hs], by simp [collapseWS]⟩
  | c1 :: c2 :: t => by
    have ih := wsOk_collapseWS (c2 :: t)
    by_cases h1 : isSpace c1 = true
    · by_cases h2 : isSpace c2 = true
      · rw [collapseWS_cons_cons_both h1 h2]; exact ih
      · rw [collapseWS_cons_cons_first h1 (by simpa using h2)]
        refine ⟨?_, ?_⟩
        · intro c hc hcs
          rcases List.mem_cons.mp hc with h' | h'
          · exact h'
          · exact ih.1 c h' hcs
        · rw [List.chain'_cons']
          refine ⟨?_, ih.2⟩
          intro y hy
          rw [head?_collapseWS (c2 :: t)] at hy
          have hy2 : (if isSpace c2 = true then ' ' else c2) = y := by
            simpa using hy
          rw [if_neg h2] at hy2
          intro hcon
          rw [← hy2] at hcon
          exact absurd hcon.2 h2
    · rw [collapseWS_cons_not_space (by simpa using h1)]
      refine ⟨?_, ?_⟩
      · intro c hc hcs
        rcases List.mem_cons.mp hc with h' | h'
        · rw [h'] at hcs; exact absurd hcs (by simpa using h1)
        · exact ih.1 c h' hcs
      · rw [List.chain'_cons']
        refine ⟨?_, ih.2⟩
        intro y hy hcon
        exact absurd hcon.1 h1

theorem collapseWS_eq_self : ∀ {l : List Char}, WsOk l → collapseWS l = l
  | [], _ => rfl
  | [c1], h => by
    by_cases hs : isSpace c1 = true
    · rw [collapseWS_singleton_space hs, h.1 c1 (by simp) hs]
    · rw [collapseWS_cons_not_space (by simpa using hs)]
      simp [collapseWS]
  | c1 :: c2 :: t, h => by
    have htail : WsOk (c2 :: t) :=
      ⟨fun c hc hcs => h.1 c (List.mem_cons_of_mem _ hc) hcs, h.2.tail⟩
    by_cases h1 : isSpace c1 = true
    · have hc2 : isSpace c2 = false := by
        have := (List.chain'_cons.mp h.2).1
        by_cases hx : isSpace c2 = true
        · exact absurd ⟨h1, hx⟩ this
        · simpa using hx
      rw [collapseWS_cons_cons_first h1 hc2, collapseWS_eq_self htail,
        h.1 c1 (by simp) h1]
    · rw [collapseWS_cons_not_space (by simpa using h1),
        collapseWS_eq_self htail]

theorem collapseWS_idem (l : List Char) :
    collapseWS (collapseWS l) = collapseWS l :=
  collapseWS_eq_self (wsOk_collapseWS l)

theorem pyStrip_prefix_dropWhile (l : List Char) :
    pyStrip l <+: l.dropWhile isSpace := by
  unfold pyStrip
  have h : ((l.dropWhile isSpace).reverse.dropWhile isSpace) <:+
      (l.dropWhile isSpace).reverse := List.dropWhile_suffix isSpace
  conv_rhs => rw [← List.reverse_reverse (l.dropWhile isSpace)]
  exact List.reverse_prefix.mpr h

theorem pyStrip_within (l : List Char) : pyStrip l <:+: l :=
  (pyStrip_prefix_dropWhile l).isInfix.trans (List.dropWhile_suffix isSpace).isInfix

theorem pyStrip_subset {l : List Char} {c : Char} (h : c ∈ pyStrip l) : c ∈ l :=
  (pyStrip_within l).sublist.subset h

theorem head?_pyStrip_not_space {l : List Char} {c : Char}
    (h : (pyStrip l).head? = some c) : isSpace c = false := by
  obtain ⟨t, ht⟩ := pyStrip_prefix_dropWhile l
  have hA : (l.dropWhile isSpace).head? = some c := by
    cases hx : pyStrip l with
    | nil => rw [hx] at h; simp at h
    | cons y M =>
      rw [hx] at h ht
      simp at h
      rw [← ht]
      simp [h]
  have hw := List.head?_dropWhile_not isSpace l
  rw [hA] at hw
  exact hw

theorem getLast?_pyStrip_not_space {l : List Char} {c : Char}
    (h : (pyStrip l).getLast? = some c) : isSpace c = false := by
  unfold pyStrip at h
  rw [List.getLast?_reverse] at h
  have hw := List.head?_dropWhile_not isSpace (l.dropWhile isSpace).reverse
  rw [h] at hw
  exact hw

theorem dropWhile_eq_self_of_head {l : List Char}
    (h : ∀ c, l.head? = some c → isSpace c = false) :
    l.dropWhile isSpace = l := by
  cases l with
  | nil => rfl
  | cons c t =>
    rw [List.dropWhile_cons_of_neg]
    simp [h c rfl]

theorem pyStrip_eq_self {l : List Char}
    (h1 : ∀ c, l.head? = some c → isSpace c = false)
    (h2 : ∀ c, l.getLast? = some c → isSpace c = false) :
    pyStrip l = l := by
  unfold pyStrip
  rw [dropWhile_eq_self_of_head h1]
  rw [dropWhile_eq_self_of_head (fun c hc => h2 c (by rwa [List.head?_reverse] at hc))]
  exact List.reverse_reverse l

theorem pyStrip_idem (l : List Char) : pyStrip (pyStrip l) = pyStrip l :=
  pyStrip_eq_self (fun _ hc => head?_pyStrip_not_space hc)
    (fun _ hc => getLast?_pyStrip_not_space hc)

theorem wsOk_pyStrip {l : List Char} (h : WsOk l) : WsOk (pyStrip l) :=
  ⟨fun c hc hcs => h.1 c (pyStrip_subset hc) hcs, List.Chain'.infix h.2 (pyStrip_within l)⟩

/-! ### Structure of `_norm` and `_norm_name` output -/

theorem map_eq_self {α : Type} {f : α → α} : ∀ {l : List α},
    (∀ a ∈ l, f a = a) → List.map f l = l
  | [], _ => rfl
  | a :: t, h => by
    rw [List.map_cons, h a (by simp),
      map_eq_self (fun b hb => h b (List.mem_cons_of_mem _ hb))]

theorem mem_norm_data {s : String} {c : Char} (h : c ∈ (_norm s).data) :
    c = ' ' ∨ ∃ d ∈ s.data, c = pyLower (replNbsp (nfkcChar d)) := by
  rcases mem_collapseWS h with h' | h'
  · rcases List.mem_map.mp h' with ⟨a, ha, rfl⟩
    have ha2 := pyStrip_subset ha
    rcases List.mem_map.mp ha2 with ⟨b, hb, rfl⟩
    rcases List.mem_map.mp hb with ⟨d, hd, rfl⟩
    exact Or.inr ⟨d, hd, rfl⟩
  · exact Or.inl h'

theorem norm_char_ne_160 {s : String} {c : Char} (h : c ∈ (_norm s).data) :
    c.toNat ≠ 160 := by
  rcases mem_norm_data h with h' | ⟨d, _, rfl⟩
  · rw [h']; decide
  · exact pyLower_toNat_ne_160 (replNbsp_nfkc_toNat_ne_160 d)

theorem norm_char_pyLower_fixed {s : String} {c : Char}
    (h : c ∈ (_norm s).data) : pyLower c = c := by
  rcases mem_norm_data h with h' | ⟨d, _, rfl⟩
  · rw [h']; decide
  · exact pyLower_idem _

theorem head?_norm_not_space {s : String} {c : Char}
    (h : (_norm s).data.head? = some c) : isSpace c = false := by
  have h2 : (collapseWS (List.map pyLower
      (pyStrip (List.map replNbsp (List.map nfkcChar s.data))))).head? = some c := h
  rw [head?_collapseWS, List.head?_map] at h2
  cases hm : (pyStrip (List.map replNbsp (List.map nfkcChar s.data))).head? with
  | none => rw [hm] at h2; simp at h2
  | some a =>
    rw [hm] at h2
    have hsp : isSpace (pyLower a) = false := by
      rw [isSpace_pyLower]
      exact head?_pyStrip_not_space hm
    simp [hsp] at h2
    rw [← h2]
    exact hsp

theorem getLast?_norm_not_space {s : String} {c : Char}
    (h : (_norm s).data.getLast? = some c) : isSpace c = false := by
  have h2 : (collapseWS (List.map pyLower
      (pyStrip (List.map replNbsp (List.map nfkcChar s.data))))).getLast? = some c := h
  rw [getLast?_collapseWS, List.getLast?_map] at h2
  cases hm : (pyStrip (List.map replNbsp (List.map nfkcChar s.data))).getLast? with
  | none => rw [hm] at h2; simp at h2
  | some a =>
    rw [hm] at h2
    have hsp : isSpace (pyLower a) = false := by
      rw [isSpace_pyLower]
      exact getLast?_pyStrip_not_space hm
    simp [hsp] at h2
    rw [← h2]
    exact hsp

theorem wsOk_norm (s : String) : WsOk (_norm s).data :=
  wsOk_collapseWS _

theorem _norm_idem (s : String) : _norm (_norm s) = _norm s := by
  have h1 : List.map nfkcChar (_norm s).data = (_norm s).data :=
    map_eq_self (fun c hc => nfkcChar_eq_self (norm_char_ne_160 hc))
  have h2 : List.map replNbsp (_norm s).data = (_norm s).data :=
    map_eq_self (fun c hc => replNbsp_eq_self (norm_char_ne_160 hc))
  have h3 : pyStrip (_norm s).data = (_norm s).data :=
    pyStrip_eq_self (fun _ hc => head?_norm_not_space hc)
      (fun _ hc => getLast?_norm_not_space hc)
  have h4 : List.map pyLower (_norm s).data = (_norm s).data :=
    map_eq_self (fun c hc => norm_char_pyLower_fixed hc)
  have h5 : collapseWS (_norm s).data = (_norm s).data :=
    collapseWS_eq_self (wsOk_norm s)
  show String.mk (collapseWS (List.map pyLower (pyStrip
    (List.map replNbsp (List.map nfkcChar (_norm s).data))))) = _norm s
  rw [h1, h2, h3, h4, h5]

theorem norm_name_data_keep {s : String} {c : Char}
    (h : c ∈ (_norm_name s).data) : keepCh c = true := by
  have h2 : c ∈ pyStrip (collapseWS (List.filter keepCh
      (List.map foldYo (_norm s).data))) := h
  have h3 := pyStrip_subset h2
  rcases mem_collapseWS h3 with h' | h'
  · exact List.of_mem_filter h'
  · rw [h']; decide

theorem wsOk_norm_name (s : String) : WsOk (_norm_name s).data :=
  wsOk_pyStrip (wsOk_collapseWS _)

theorem pyStrip_norm_name (s : String) :
    pyStrip (_norm_name s).data = (_norm_name s).data :=
  pyStrip_idem _

theorem _norm_of_norm_name (s : String) :
    _norm (_norm_name s) = _norm_name s := by
  have hk : ∀ c ∈ (_norm_name s).data,
      (1072 ≤ c.toNat ∧ c.toNat ≤ 1103) ∨ c.toNat = 32 := by
    intro c hc
    exact keepCh_iff.mp (norm_name_data_keep hc)
  have h1 : List.map nfkcChar (_norm_name s).data = (_norm_name s).data :=
    map_eq_self (fun c hc =>
      nfkcChar_eq_self (by rcases hk c hc with h | h <;> omega))
  have h2 : List.map replNbsp (_norm_name s).data = (_norm_name s).data :=
    map_eq_self (fun c hc =>
      replNbsp_eq_self (by rcases hk c hc with h | h <;> omega))
  have h4 : List.map pyLower (_norm_name s).data = (_norm_name s).data :=
    map_eq_self (fun c hc => pyLower_eq_self
      (by rcases hk c hc with h | h <;> omega)
      (by rcases hk c hc with h | h <;> omega)
      (by rcases hk c hc with h | h <;> omega))
  have h5 : collapseWS (_norm_name s).data = (_norm_name s).data :=
    collapseWS_eq_self (wsOk_norm_name s)
  show String.mk (collapseWS (List.map pyLower (pyStrip
    (List.map replNbsp (List.map nfkcChar (_norm_name s).data))))) = _norm_name s
  rw [h1, h2, pyStrip_norm_name, h4, h5]

theorem _norm_name_idem (s : String) :
    _norm_name (_norm_name s) = _norm_name s := by
  have hk : ∀ c ∈ (_norm_name s).data,
      (1072 ≤ c.toNat ∧ c.toNat ≤ 1103) ∨ c.toNat = 32 := by
    intro c hc
    exact keepCh_iff.mp (norm_name_data_keep hc)
  have hf : List.map foldYo (_norm_name s).data = (_norm_name s).data :=
    map_eq_self (fun c hc =>
      foldYo_eq_self (by rcases hk c hc with h | h <;> omega))
  have hfil : List.filter keepCh (_norm_name s).data = (_norm_name s).data :=
    List.filter_eq_self.mpr (fun c hc => norm_name_data_keep hc)
  have h5 : collapseWS (_norm_name s).data = (_norm_name s).data :=
    collapseWS_eq_self (wsOk_norm_name s)
  show String.mk (pyStrip (collapseWS (List.filter keepCh
    (List.map foldYo (_norm (_norm_name s)).data)))) = _norm_name s
  rw [_norm_of_norm_name, hf, hfil, h5, pyStrip_norm_name]

/-! ### The strict name normalizer on names without Cyrillic letters -/

theorem pyStrip_eq_nil_of_all_space {l : List Char}
    (h : ∀ c ∈ l, isSpace c = true) : pyStrip l = [] := by
  unfold pyStrip
  rw [List.dropWhile_eq_nil_iff.mpr h]
  rfl

theorem norm_name_eq_empty {s : String}
    (h : ∀ d ∈ s.data, ¬('а' ≤ foldYo (pyLower (replNbsp (nfkcChar d))) ∧
        foldYo (pyLower (replNbsp (nfkcChar d))) ≤ 'я')) :
    _norm_name s = "" := by
  have hall : ∀ c ∈ List.filter keepCh (List.map foldYo (_norm s).data),
      c = ' ' := by
    intro c hc
    have hk := List.of_mem_filter hc
    have hm := List.mem_of_mem_filter hc
    rcases List.mem_map.mp hm with ⟨e, he, rfl⟩
    rcases mem_norm_data he with h' | ⟨d, hd, rfl⟩
    · rw [h']; rfl
    · rcases (by simpa [keepCh] using hk :
        ('а' ≤ foldYo (pyLower (replNbsp (nfkcChar d))) ∧
          foldYo (pyLower (replNbsp (nfkcChar d))) ≤ 'я') ∨
          foldYo (pyLower (replNbsp (nfkcChar d))) = ' ') with hr | hr
      · exact absurd hr (h d hd)
      · exact hr
  have hsp : ∀ c ∈ collapseWS (List.filter keepCh
      (List.map foldYo (_norm s).data)), isSpace c = true := by
    intro c hc
    rcases mem_collapseWS hc with h' | h'
    · rw [hall c h']; rfl
    · rw [h']; rfl
  show String.mk (pyStrip (collapseWS (List.filter keepCh
    (List.map foldYo (_norm s).data)))) = ""
  rw [pyStrip_eq_nil_of_all_space hsp]

theorem matchRowFrom_empty_target :
    ∀ (l : List (List String)) (i : Nat), matchRowFrom "" l i = none
  | [], _ => rfl
  | row :: rest, i => by
    unfold matchRowFrom
    split
    · exact matchRowFrom_empty_target rest (i + 1)
    · rw [if_neg (by simp)]
      exact matchRowFrom_empty_target rest (i + 1)

theorem find_score_none_of_empty_target {rows : List (List String)}
    {surname : String} {p su tl : Bool} (h : _norm_name surname = "") :
    find_score_by_surname rows surname p su tl = none := by
  unfold find_score_by_surname
  split
  · rfl
  · simp only [h, matchRowFrom_empty_target]

/-! ### Bound on values returned by `_safe_number` -/

theorem _safe_number_lt {s : String} {v : ℚ}
    (h : _safe_number s = some v) : |v| < 100000 := by
  simp only [_safe_number] at h
  split at h
  · split at h
    · cases h
    · next hge =>
      rw [Option.some.injEq] at h
      rw [← h]
      exact lt_of_not_ge hge
  · cases h

/-! ### Claim theorems: normalization and parsing -/

/-- Claim C8: normalization is idempotent, both for `_norm` and for the
strict name variant `_norm_name`. -/
theorem normalization_idempotent_spec (s : String) :
    _norm (_norm s) = _norm s ∧ _norm_name (_norm_name s) = _norm_name s :=
  ⟨_norm_idem s, _norm_name_idem s⟩

/-- Claim C3: `_safe_number` accepts `"99999.999"` and `"3,5"` (comma as
decimal point, value 3.5), rejects `"100000"`, `"-100000"`, `"abc"` and
the empty string (absent, not zero); and every value it returns has
magnitude strictly below 100000 (non-finite parses are rejected by the
finiteness branch of the definition). -/
theorem safe_number_spec (s : String) (v : ℚ)
    (h : _safe_number s = some v) :
    |v| < 100000 ∧
    _safe_number "99999.999" = some (99999999 / 1000) ∧
    _safe_number "3,5" = some (7 / 2) ∧
    _safe_number "100000" = none ∧
    _safe_number "-100000" = none ∧
    _safe_number "abc" = none ∧
    _safe_number "" = none :=
  ⟨_safe_number_lt h, by with_unfolding_all rfl, by with_unfolding_all rfl,
    by with_unfolding_all rfl, by with_unfolding_all rfl,
    by with_unfolding_all rfl, by with_unfolding_all rfl⟩

/-- Witness for C3 at the concrete input `"5"`. -/
theorem safe_number_spec_witness :
    |(5 : ℚ)| < 100000 ∧
    _safe_number "99999.999" = some (99999999 / 1000) ∧
    _safe_number "3,5" = some (7 / 2) ∧
    _safe_number "100000" = none ∧
    _safe_number "-100000" = none ∧
    _safe_number "abc" = none ∧
    _safe_number "" = none :=
  safe_number_spec "5" 5 (by with_unfolding_all rfl)

/-- Claim C10: every character of `_norm_name s` is a space or a
Cyrillic letter in `а`–`я` (so `ё` never appears, and Cyrillic letters
outside the range are deleted); a target all of whose characters
normalize outside that range — e.g. a purely Latin surname — normalizes
to the empty string, and `find_score_by_surname` returns `none` for it
on every grid. -/
theorem strict_name_alphabet_spec (s : String) (rows : List (List String))
    (p su tl : Bool) :
    (∀ c ∈ (_norm_name s).data, c = ' ' ∨ ('а' ≤ c ∧ c ≤ 'я')) ∧
    ((∀ d ∈ s.data, ¬('а' ≤ foldYo (pyLower (replNbsp (nfkcChar d))) ∧
        foldYo (pyLower (replNbsp (nfkcChar d))) ≤ 'я')) →
      _norm_name s = "" ∧ find_score_by_surname rows s p su tl = none) := by
  constructor
  · intro c hc
    have hk := norm_name_data_keep hc
    rcases (by simpa [keepCh] using hk :
        ('а' ≤ c ∧ c ≤ 'я') ∨ c = ' ') with h | h
    · exact Or.inr h
    · exact Or.inl h
  · intro h
    have he := norm_name_eq_empty h
    exact ⟨he, find_score_none_of_empty_target he⟩

/-- Witness for C10 at the Latin-script surname `"Smith"`. -/
theorem strict_name_alphabet_spec_witness :
    _norm_name "Smith" = "" ∧
    find_score_by_surname [["Smith", "5"]] "Smith" false false false = none :=
  (strict_name_alphabet_spec "Smith" [["Smith", "5"]] false false false).2
    (by decide)

/-! ### Case lemmas for `find_score_by_surname` -/

theorem find_score_nil (surname : String) (p su tl : Bool) :
    find_score_by_surname [] surname p su tl = none := rfl

theorem find_score_no_match {rows : List (List String)} {surname : String}
    (p su tl : Bool) (hr : rows ≠ [])
    (hm : matchRowFrom (_norm_name surname)
      (rows.drop (_find_header_row rows + 1)) (_find_header_row rows + 1) = none) :
    find_score_by_surname rows surname p su tl = none := by
  unfold find_score_by_surname
  rw [if_neg hr]
  simp only [hm]

theorem find_score_matched_take_last {rows : List (List String)}
    {surname : String} (p su : Bool) {i : Nat} {row : List String}
    (hr : rows ≠ [])
    (hm : matchRowFrom (_norm_name surname)
      (rows.drop (_find_header_row rows + 1)) (_find_header_row rows + 1) =
      some (i, row)) :
    find_score_by_surname rows surname p su true =
      match lastNumeric row with
      | some v => some ⟨v, [v], row⟩
      | none => none := by
  unfold find_score_by_surname
  rw [if_neg hr]
  simp only [hm]
  rw [if_pos trivial]

theorem find_score_matched_not_take {rows : List (List String)}
    {surname : String} (p su : Bool) {i : Nat} {row : List String}
    (hr : rows ≠ [])
    (hm : matchRowFrom (_norm_name surname)
      (rows.drop (_find_header_row rows + 1)) (_find_header_row rows + 1) =
      some (i, row)) :
    find_score_by_surname rows surname p su false =
      if p = true ∧ ∃ tj, _find_preferred_total_index (headersOf rows) = some tj ∧
          tj < row.length then
        match _safe_number
            (row.getD ((_find_preferred_total_index (headersOf rows)).getD 0) "") with
        | some v => some ⟨v, [v], row⟩
        | none => some (sumLeftUntilTotal row (stopAt rows))
      else some (sumLeftUntilTotal row (stopAt rows)) := by
  unfold find_score_by_surname
  rw [if_neg hr]
  simp only [hm]
  rw [if_neg (by simp)]
  split
  · rfl
  · cases su <;> rfl

/-! ### Claim theorems: strategies -/

/-- Claim C7: when several strategy flags are set, `take_last_total` is
applied first, then `prefer_total`, then `sum_until_total`; and the
result with no flags set is identical to the result with only
`sum_until_total` set. -/
theorem strategy_precedence_spec (rows : List (List String))
    (surname : String) (p su : Bool) :
    find_score_by_surname rows surname p su true =
      find_score_by_surname rows surname false false true ∧
    find_score_by_surname rows surname true su false =
      find_score_by_surname rows surname true false false ∧
    find_score_by_surname rows surname false false false =
      find_score_by_surname rows surname false true false := by
  by_cases hr : rows = []
  · subst hr
    exact ⟨rfl, rfl, rfl⟩
  · cases hm : matchRowFrom (_norm_name surname)
      (rows.drop (_find_header_row rows + 1)) (_find_header_row rows + 1) with
    | none =>
      rw [find_score_no_match p su true hr hm,
        find_score_no_match false false true hr hm,
        find_score_no_match true su false hr hm,
        find_score_no_match true false false hr hm,
        find_score_no_match false false false hr hm,
        find_score_no_match false true false hr hm]
      exact ⟨rfl, rfl, rfl⟩
    | some pr =>
      obtain ⟨i, row⟩ := pr
      refine ⟨?_, ?_, ?_⟩
      · rw [find_score_matched_take_last p su hr hm,
          find_score_matched_take_last false false hr hm]
      · rw [find_score_matched_not_take true su hr hm,
          find_score_matched_not_take true false hr hm]
      · rw [find_score_matched_not_take false false hr hm,
          find_score_matched_not_take false true hr hm]

/-- Claim C2: on the header `["ФИО","лр1","лр2","Итог","комментарий"]`
with data row `["Иванов","5","7","12","ok"]` and `sum_until_total`, the
stop index is 3 (the total column), the name cell is skipped as
non-numeric, the contributing values are `[5, 7]`, and the rounded sum
is 12. -/
theorem sum_until_total_example_spec :
    _find_preferred_total_index ["ФИО", "лр1", "лр2", "Итог", "комментарий"] =
      some 3 ∧
    _safe_number "Иванов" = none ∧
    find_score_by_surname
      [["ФИО", "лр1", "лр2", "Итог", "комментарий"],
       ["Иванов", "5", "7", "12", "ok"]] "Иванов" false true false =
      some ⟨12, [5, 7], ["Иванов", "5", "7", "12", "ok"]⟩ ∧
    round3 (5 + 7) = 12 :=
  ⟨by decide, by with_unfolding_all rfl, by with_unfolding_all rfl,
    by with_unfolding_all rfl⟩

/-- Claim C1 (amended): the result is absent exactly when the grid is
empty, no row matches the target, or `take_last_total` is set and no
cell of the matched row parses; under the summing strategies a matched
row always yields a present score (0 when nothing parses), individual
unparsable cells being skipped while the remaining cells contribute. -/
theorem score_absent_spec (rows : List (List String)) (surname : String)
    (p su tl : Bool) :
    (rows = [] → find_score_by_surname rows surname p su tl = none) ∧
    (matchRowFrom (_norm_name surname) (rows.drop (_find_header_row rows + 1))
        (_find_header_row rows + 1) = none →
      find_score_by_surname rows surname p su tl = none) ∧
    (∀ i row, rows ≠ [] →
      matchRowFrom (_norm_name surname) (rows.drop (_find_header_row rows + 1))
        (_find_header_row rows + 1) = some (i, row) →
      (find_score_by_surname rows surname p su tl = none ↔
        tl = true ∧ lastNumeric row = none)) ∧
    (∀ i row, rows ≠ [] →
      matchRowFrom (_norm_name surname) (rows.drop (_find_header_row rows + 1))
        (_find_header_row rows + 1) = some (i, row) →
      p = false → tl = false →
      find_score_by_surname rows surname p su tl =
        some ⟨round3 ((List.filterMap _safe_number
            (row.take (min (stopAt rows) row.length))).sum),
          List.filterMap _safe_number (row.take (min (stopAt rows) row.length)),
          row⟩) := by
  refine ⟨?_, ?_, ?_, ?_⟩
  · rintro rfl
    exact find_score_nil surname p su tl
  · intro hm
    by_cases hr : rows = []
    · subst hr; exact find_score_nil surname p su tl
    · exact find_score_no_match p su tl hr hm
  · intro i row hr hm
    cases tl with
    | true =>
      rw [find_score_matched_take_last p su hr hm]
      cases hl : lastNumeric row with
      | none => simp [hl]
      | some v => simp [hl]
    | false =>
      rw [find_score_matched_not_take p su hr hm]
      constructor
      · intro h
        exfalso
        revert h
        split
        · split <;> intro h <;> cases h
        · intro h; cases h
      · rintro ⟨h, -⟩
        cases h
  · intro i row hr hm hp htl
    subst hp htl
    rw [find_score_matched_not_take false su hr hm]
    rw [if_neg (by rintro ⟨h, -⟩; cases h)]
    rfl

/-- Witness for C1 (amended) on a concrete grid with `take_last_total`. -/
theorem score_absent_spec_witness :
    find_score_by_surname [["ФИО"], ["Иванов"]] "Иванов" false false true =
        none ↔
      true = true ∧ lastNumeric ["Иванов"] = none :=
  (score_absent_spec [["ФИО"], ["Иванов"]] "Иванов" false false true).2.2.1
    1 ["Иванов"] (by simp) (by with_unfolding_all rfl)

/-- Counterexample to C1 as stated: the target is found in a grid whose
matched row has no numeric data, yet the summing strategy returns a
present score 0 with no contributing values, not an absent score. -/
theorem score_absent_counterexample :
    find_score_by_surname [["ФИО"], ["Иванов"]] "Иванов" false true false =
      some ⟨0, [], ["Иванов"]⟩ ∧
    _safe_number "Иванов" = none :=
  ⟨by with_unfolding_all rfl, by with_unfolding_all rfl⟩

/-! ### Header locator: characterization -/

theorem findFirstIdx_eq_some {p : List String → Bool} :
    ∀ {l : List (List String)} {i0 j : Nat},
      findFirstIdx p l i0 = some j ↔
        ∃ k, k < l.length ∧ j = i0 + k ∧ p (l.getD k []) = true ∧
          ∀ m, m < k → p (l.getD m []) = false := by
  intro l
  induction l with
  | nil => simp [findFirstIdx]
  | cons r rs ih =>
    intro i0 j
    unfold findFirstIdx
    by_cases hp : p r = true
    · rw [if_pos hp]
      constructor
      · rintro h
        rw [Option.some.injEq] at h
        exact ⟨0, by simp, by omega, by simpa using hp, by omega⟩
      · rintro ⟨k, hk, rfl, hpk, hmin⟩
        cases k with
        | zero => simp
        | succ k' =>
          exact absurd hp (by simpa using hmin 0 (by omega))
    · rw [if_neg hp]
      rw [ih]
      constructor
      · rintro ⟨k, hk, rfl, hpk, hmin⟩
        refine ⟨k + 1, by simpa using hk, by omega, by simpa using hpk, ?_⟩
        intro m hm
        cases m with
        | zero => simpa using (by simpa using hp : p r = false)
        | succ m' => simpa using hmin m' (by omega)
      · rintro ⟨k, hk, rfl, hpk, hmin⟩
        cases k with
        | zero => exact absurd (by simpa using hpk) hp
        | succ k' =>
          refine ⟨k', by simpa using hk, by omega, by simpa using hpk, ?_⟩
          intro m hm
          simpa using hmin (m + 1) (by omega)

theorem findFirstIdx_eq_none {p : List String → Bool} :
    ∀ {l : List (List String)} {i0 : Nat},
      findFirstIdx p l i0 = none ↔
        ∀ k, k < l.length → p (l.getD k []) = false := by
  intro l
  induction l with
  | nil => simp [findFirstIdx]
  | cons r rs ih =>
    intro i0
    unfold findFirstIdx
    by_cases hp : p r = true
    · rw [if_pos hp]
      constructor
      · intro h; cases h
      · intro hall
        exact absurd hp (by simpa using hall 0 (by simp))
    · rw [if_neg hp]
      rw [ih]
      constructor
      · intro hall k hk
        cases k with
        | zero => simpa using (by simpa using hp : p r = false)
        | succ k' => simpa using hall k' (by simpa using hk)
      · intro hall k hk
        simpa using hall (k + 1) (by simpa using hk)

theorem pyStrip_eq_nil_iff {l : List Char} :
    pyStrip l = [] ↔ ∀ c ∈ l, isSpace c = true := by
  constructor
  · intro h c hc
    unfold pyStrip at h
    rw [List.reverse_eq_nil_iff, List.dropWhile_eq_nil_iff] at h
    have hA : ∀ x ∈ l.dropWhile isSpace, isSpace x = true := by
      intro x hx
      exact h x (by simpa using hx)
    have hc2 : c ∈ l.takeWhile isSpace ++ l.dropWhile isSpace := by
      rw [List.takeWhile_append_dropWhile]
      exact hc
    rcases List.mem_append.mp hc2 with h' | h'
    · exact List.mem_takeWhile_imp h'
    · exact hA c h'
  · exact pyStrip_eq_nil_of_all_space

theorem pySubstr_ne_nil {pat l : List Char} (hp : pat ≠ [])
    (h : pySubstr pat l = true) : l ≠ [] := by
  cases l with
  | nil =>
    unfold pySubstr at h
    rw [List.isEmpty_iff] at h
    exact absurd h hp
  | cons c rest => simp

theorem hasLabMarker_ne_nil {l : List Char} (h : hasLabMarker l = true) :
    l ≠ [] := by
  cases l with
  | nil => cases h
  | cons c rest => simp

theorem string_ne_empty_of_data {s : String} (h : s.data ≠ []) : s ≠ "" := by
  intro he
  subst he
  exact h rfl

theorem norm_ne_empty_nonblank {cell : String} (h : _norm cell ≠ "") :
    (pyStrip cell.data).isEmpty = false := by
  rw [Bool.eq_false_iff]
  intro hemp
  apply h
  rw [List.isEmpty_iff] at hemp
  have hall := pyStrip_eq_nil_iff.mp hemp
  have hall2 : ∀ c ∈ List.map replNbsp (List.map nfkcChar cell.data),
      isSpace c = true := by
    intro c hc
    rcases List.mem_map.mp hc with ⟨b, hb, rfl⟩
    rcases List.mem_map.mp hb with ⟨d, hd, rfl⟩
    have hd2 := hall d hd
    by_cases h160 : d.toNat = 160
    · rw [show nfkcChar d = ' ' from by simp [nfkcChar, h160]]
      decide
    · rw [nfkcChar_eq_self h160, replNbsp_eq_self h160]
      exact hd2
  show String.mk (collapseWS (List.map pyLower
    (pyStrip (List.map replNbsp (List.map nfkcChar cell.data))))) = ""
  rw [pyStrip_eq_nil_of_all_space hall2]
  rfl

theorem rowNonblank_of_headerPred {row : List String}
    (h : headerPred row = true) : rowNonblank row = true := by
  unfold headerPred at h
  split at h
  · cases h
  · next hrow =>
    obtain ⟨r0, rest, rfl⟩ : ∃ r0 rest, row = r0 :: rest := by
      cases row with
      | nil => exact absurd rfl hrow
      | cons r0 rest => exact ⟨r0, rest, rfl⟩
    have hcell : ∃ c ∈ r0 :: rest, _norm c ≠ "" := by
      simp only [Bool.or_eq_true, List.any_eq_true, List.map_cons,
        List.headD_cons] at h
      rcases h with (((h | h) | h) | ⟨c, hc, h | h⟩) | ⟨c, hc, h⟩
      · exact ⟨r0, by simp,
          string_ne_empty_of_data (pySubstr_ne_nil (by decide) h)⟩
      · exact ⟨r0, by simp,
          string_ne_empty_of_data (pySubstr_ne_nil (by decide) h)⟩
      · exact ⟨r0, by simp,
          string_ne_empty_of_data (pySubstr_ne_nil (by decide) h)⟩
      · rcases List.mem_map.mp (by simpa using hc :
            c ∈ List.map _norm (r0 :: rest)) with ⟨c0, hc0, rfl⟩
        exact ⟨c0, hc0,
          string_ne_empty_of_data (pySubstr_ne_nil (by decide) h)⟩
      · rcases List.mem_map.mp (by simpa using hc :
            c ∈ List.map _norm (r0 :: rest)) with ⟨c0, hc0, rfl⟩
        exact ⟨c0, hc0,
          string_ne_empty_of_data (pySubstr_ne_nil (by decide) h)⟩
      · rcases List.mem_map.mp (by simpa using hc :
            c ∈ List.map _norm (r0 :: rest)) with ⟨c0, hc0, rfl⟩
        exact ⟨c0, hc0, string_ne_empty_of_data (hasLabMarker_ne_nil h)⟩
    rcases hcell with ⟨c, hc, hne⟩
    unfold rowNonblank
    rw [List.any_eq_true]
    refine ⟨c, hc, ?_⟩
    rw [norm_ne_empty_nonblank hne]
    rfl

theorem getD_take {l : List (List String)} {k n : Nat} (h : k < n) :
    (l.take n).getD k [] = l.getD k [] := by
  simp [List.getD_eq_getElem?_getD, List.getElem?_take, h]

theorem _find_header_row_of_first {rows : List (List String)} {i : Nat}
    (h : findFirstIdx headerPred (rows.take 10) 0 = some i) :
    _find_header_row rows = i := by
  unfold _find_header_row
  rw [h]

theorem _find_header_row_of_second {rows : List (List String)} {i : Nat}
    (h1 : findFirstIdx headerPred (rows.take 10) 0 = none)
    (h2 : findFirstIdx rowNonblank rows 0 = some i) :
    _find_header_row rows = i := by
  unfold _find_header_row
  rw [h1, h2]

theorem _find_header_row_of_none {rows : List (List String)}
    (h1 : findFirstIdx headerPred (rows.take 10) 0 = none)
    (h2 : findFirstIdx rowNonblank rows 0 = none) :
    _find_header_row rows = 0 := by
  unfold _find_header_row
  rw [h1, h2]

/-- Claim C5: the Header Locator is total: it returns the first of the
first 10 rows satisfying the header heuristic (identity marker in the
first cell, total marker in any cell, or lab-number marker in any cell);
failing that, the first row in full scan order with a non-blank cell;
failing that, index 0. -/
theorem header_locator_spec (rows : List (List String)) :
    ((∃ i, i < rows.length ∧ i < 10 ∧ headerPred (rows.getD i []) = true) →
      _find_header_row rows < rows.length ∧ _find_header_row rows < 10 ∧
      headerPred (rows.getD (_find_header_row rows) []) = true ∧
      ∀ j, j < _find_header_row rows → headerPred (rows.getD j []) = false) ∧
    ((∀ i, i < rows.length → i < 10 → headerPred (rows.getD i []) = false) →
      (∃ i, i < rows.length ∧ rowNonblank (rows.getD i []) = true) →
      _find_header_row rows < rows.length ∧
      rowNonblank (rows.getD (_find_header_row rows) []) = true ∧
      ∀ j, j < _find_header_row rows → rowNonblank (rows.getD j []) = false) ∧
    ((∀ i, i < rows.length → rowNonblank (rows.getD i []) = false) →
      _find_header_row rows = 0) := by
  cases h1 : findFirstIdx headerPred (rows.take 10) 0 with
  | some i =>
    rcases findFirstIdx_eq_some.mp h1 with ⟨k, hk, hik, hpk, hmin⟩
    rw [List.length_take] at hk
    have hk10 : k < 10 := lt_of_lt_of_le hk (min_le_left _ _)
    have hklen : k < rows.length := lt_of_lt_of_le hk (min_le_right _ _)
    have hpred : headerPred (rows.getD k []) = true := by
      rw [← getD_take hk10]; exact hpk
    have heq : _find_header_row rows = k := by
      rw [_find_header_row_of_first h1, hik]; omega
    refine ⟨?_, ?_, ?_⟩
    · intro _
      rw [heq]
      refine ⟨hklen, hk10, hpred, ?_⟩
      intro j hj
      rw [← getD_take (show j < 10 by omega)]
      exact hmin j hj
    · intro hnone _
      have := hnone k hklen hk10
      rw [this] at hpred
      cases hpred
    · intro hblank
      have hb := rowNonblank_of_headerPred hpred
      rw [hblank k hklen] at hb
      cases hb
  | none =>
    have hno10 := findFirstIdx_eq_none.mp h1
    rw [List.length_take] at hno10
    have hnopred : ∀ i, i < rows.length → i < 10 →
        headerPred (rows.getD i []) = false := by
      intro i hi h10
      rw [← getD_take h10]
      exact hno10 i (by omega)
    cases h2 : findFirstIdx rowNonblank rows 0 with
    | some i =>
      rcases findFirstIdx_eq_some.mp h2 with ⟨k, hk, hik, hpk, hmin⟩
      have heq : _find_header_row rows = k := by
        rw [_find_header_row_of_second h1 h2, hik]; omega
      refine ⟨?_, ?_, ?_⟩
      · rintro ⟨i2, hi2, h10, hp⟩
        rw [hnopred i2 hi2 h10] at hp
        cases hp
      · intro _ _
        rw [heq]
        exact ⟨hk, hpk, fun j hj => hmin j hj⟩
      · intro hblank
        have hb := hblank k hk
        rw [hpk] at hb
        cases hb
    | none =>
      have hnob := findFirstIdx_eq_none.mp h2
      refine ⟨?_, ?_, ?_⟩
      · rintro ⟨i2, hi2, h10, hp⟩
        rw [hnopred i2 hi2 h10] at hp
        cases hp
      · rintro _ ⟨i2, hi2, hb⟩
        rw [hnob i2 hi2] at hb
        cases hb
      · intro _
        exact _find_header_row_of_none h1 h2

/-! ### Total-column locator: characterization -/

theorem mem_ranksOf : ∀ {headers : List String} {j0 r j : Nat},
    (r, j) ∈ ranksOf headers j0 ↔
      ∃ k, k < headers.length ∧ j = j0 + k ∧
        cellRank (headers.getD k "") = some r := by
  intro headers
  induction headers with
  | nil => simp [ranksOf]
  | cons h t ih =>
    intro j0 r j
    unfold ranksOf
    cases hc : cellRank h with
    | some r0 =>
      simp only [List.mem_cons, Prod.mk.injEq, ih]
      constructor
      · rintro (⟨rfl, rfl⟩ | ⟨k, hk, rfl, hck⟩)
        · exact ⟨0, by simp, by omega, by simpa using hc⟩
        · exact ⟨k + 1, by simpa using hk, by omega, by simpa using hck⟩
      · rintro ⟨k, hk, rfl, hck⟩
        cases k with
        | zero =>
          left
          refine ⟨?_, by omega⟩
          simp only [List.getD_cons_zero] at hck
          rw [hc] at hck
          exact (Option.some.injEq _ _ ▸ hck).symm
        | succ k' =>
          right
          exact ⟨k', by simpa using hk, by omega, by simpa using hck⟩
    | none =>
      rw [ih]
      constructor
      · rintro ⟨k, hk, rfl, hck⟩
        exact ⟨k + 1, by simpa using hk, by omega, by simpa using hck⟩
      · rintro ⟨k, hk, rfl, hck⟩
        cases k with
        | zero =>
          simp only [List.getD_cons_zero] at hck
          rw [hc] at hck
          cases hck
        | succ k' =>
          exact ⟨k', by simpa using hk, by omega, by simpa using hck⟩

theorem ranksOf_eq_nil_iff : ∀ {headers : List String} {j0 : Nat},
    ranksOf headers j0 = [] ↔ ∀ h ∈ headers, cellRank h = none := by
  intro headers
  induction headers with
  | nil => simp [ranksOf]
  | cons h t ih =>
    intro j0
    unfold ranksOf
    cases hc : cellRank h with
    | some r0 =>
      simp only [List.forall_mem_cons, hc]
      constructor
      · intro hx; cases hx
      · rintro ⟨hx, -⟩; cases hx
    | none =>
      rw [ih]
      simp [hc]

theorem foldl_min_le_start : ∀ (l : List Nat) (a : Nat), l.foldl min a ≤ a := by
  intro l
  induction l with
  | nil => intro a; exact le_refl a
  | cons x t ih =>
    intro a
    exact le_trans (ih (min a x)) (min_le_left a x)

theorem foldl_min_le_mem : ∀ (l : List Nat) (a x : Nat), x ∈ l →
    l.foldl min a ≤ x := by
  intro l
  induction l with
  | nil => intro a x hx; cases hx
  | cons y t ih =>
    intro a x hx
    rcases List.mem_cons.mp hx with rfl | hx'
    · exact le_trans (foldl_min_le_start t (min a x)) (min_le_right a x)
    · exact ih (min a y) x hx'

theorem foldl_min_mem : ∀ (l : List Nat) (a : Nat),
    l.foldl min a = a ∨ l.foldl min a ∈ l := by
  intro l
  induction l with
  | nil => intro a; exact Or.inl rfl
  | cons x t ih =>
    intro a
    rcases ih (min a x) with h | h
    · rcases Nat.le_total a x with hax | hax
      · rw [List.foldl_cons, h, min_eq_left hax]
        exact Or.inl rfl
      · rw [List.foldl_cons, h, min_eq_right hax]
        exact Or.inr (by simp)
    · exact Or.inr (List.mem_cons_of_mem _ (by simpa using h))

theorem le_foldl_max : ∀ (l : List Nat) (a : Nat), a ≤ l.foldl max a := by
  intro l
  induction l with
  | nil => intro a; exact le_refl a
  | cons x t ih =>
    intro a
    exact le_trans (le_max_left a x) (ih (max a x))

theorem mem_le_foldl_max : ∀ (l : List Nat) (a x : Nat), x ∈ l →
    x ≤ l.foldl max a := by
  intro l
  induction l with
  | nil => intro a x hx; cases hx
  | cons y t ih =>
    intro a x hx
    rcases List.mem_cons.mp hx with rfl | hx'
    · exact le_trans (le_max_right a x) (le_foldl_max t (max a x))
    · exact ih (max a y) x hx'

theorem foldl_max_mem : ∀ (l : List Nat) (a : Nat),
    l.foldl max a = a ∨ l.foldl max a ∈ l := by
  intro l
  induction l with
  | nil => intro a; exact Or.inl rfl
  | cons x t ih =>
    intro a
    rcases ih (max a x) with h | h
    · rcases Nat.le_total a x with hax | hax
      · rw [List.foldl_cons, h, max_eq_right hax]
        exact Or.inr (by simp)
      · rw [List.foldl_cons, h, max_eq_left hax]
        exact Or.inl rfl
    · exact Or.inr (List.mem_cons_of_mem _ (by simpa using h))

theorem getD_mem_of_lt {l : List String} {n : Nat} (h : n < l.length) :
    l.getD n "" ∈ l := by
  rw [List.getD_eq_getElem?_getD, List.getElem?_eq_getElem h]
  exact List.getElem_mem h

theorem _fpti_nil_of_ranks {headers : List String}
    (hranks : ranksOf headers 0 = []) :
    _find_preferred_total_index headers = none := by
  unfold _find_preferred_total_index
  split
  · rfl
  · rw [hranks]

theorem _fpti_cons_of_ranks {headers : List String} {r0 j0 : Nat}
    {rest : List (Nat × Nat)} (hne : headers ≠ [])
    (hranks : ranksOf headers 0 = (r0, j0) :: rest) :
    _find_preferred_total_index headers =
      some (((((r0, j0) :: rest).filter
          (fun p => p.1 == rest.foldl (fun a p => min a p.1) r0)).map
        Prod.snd).foldl max 0) := by
  unfold _find_preferred_total_index
  rw [if_neg hne, hranks]

/-- Claim C4: the Total-Column Locator classifies each non-empty
normalized header cell by specificity rank (`cellRank`), returns `none`
exactly when no cell matches any rank, and otherwise returns the
rightmost (highest) column index among the cells at the best
(numerically lowest) rank present; any returned index is a valid
position in the header row. -/
theorem total_locator_spec (headers : List String) :
    (_find_preferred_total_index headers = none ↔
      ∀ h ∈ headers, cellRank h = none) ∧
    (∀ j, _find_preferred_total_index headers = some j →
      j < headers.length ∧
      ∃ r, cellRank (headers.getD j "") = some r ∧
        (∀ k r', k < headers.length →
          cellRank (headers.getD k "") = some r' → r ≤ r') ∧
        (∀ k, j < k → k < headers.length →
          cellRank (headers.getD k "") ≠ some r)) := by
  by_cases hne : headers = []
  · subst hne
    refine ⟨by simp [_find_preferred_total_index], ?_⟩
    intro j hj
    simp [_find_preferred_total_index] at hj
  · cases hranks : ranksOf headers 0 with
    | nil =>
      have heq := _fpti_nil_of_ranks hranks
      refine ⟨?_, ?_⟩
      · rw [heq]
        simp only [true_iff]
        exact ranksOf_eq_nil_iff.mp hranks
      · intro j hj
        rw [heq] at hj
        cases hj
    | cons hd rest =>
      obtain ⟨r0, j0⟩ := hd
      have heq := _fpti_cons_of_ranks hne hranks
      set best := rest.foldl (fun a p => min a p.1) r0 with hbestdef
      have hbest_map : best = (rest.map Prod.fst).foldl min r0 := by
        rw [hbestdef, List.foldl_map]
      have hranks_mem : ∀ {r j : Nat}, (r, j) ∈ (r0, j0) :: rest ↔
          ∃ k, k < headers.length ∧ j = k ∧
            cellRank (headers.getD k "") = some r := by
        intro r j
        rw [← hranks, mem_ranksOf]
        constructor
        · rintro ⟨k, hk, rfl, hck⟩; exact ⟨k, hk, by omega, hck⟩
        · rintro ⟨k, hk, rfl, hck⟩; exact ⟨j, hk, by omega, hck⟩
      have hbest_le : ∀ {r j : Nat}, (r, j) ∈ (r0, j0) :: rest → best ≤ r := by
        intro r j hmem
        rcases List.mem_cons.mp hmem with he | ht
        · rw [Prod.mk.injEq] at he
          rw [hbest_map, he.1]
          exact foldl_min_le_start _ _
        · rw [hbest_map]
          exact foldl_min_le_mem _ _ _ (List.mem_map.mpr ⟨(r, j), ht, rfl⟩)
      have hbest_wit : ∃ jb, (best, jb) ∈ (r0, j0) :: rest := by
        rcases foldl_min_mem (rest.map Prod.fst) r0 with h | h
        · refine ⟨j0, ?_⟩
          have hb : best = r0 := by rw [hbest_map]; exact h
          rw [hb]
          simp
        · rcases List.mem_map.mp h with ⟨⟨r1, j1⟩, hmem, he⟩
          refine ⟨j1, ?_⟩
          have hb : best = r1 := by rw [hbest_map]; exact he.symm
          rw [hb]
          exact List.mem_cons_of_mem _ hmem
      have hcands_iff : ∀ {k : Nat},
          k ∈ (((r0, j0) :: rest).filter (fun p => p.1 == best)).map Prod.snd ↔
            (best, k) ∈ (r0, j0) :: rest := by
        intro k
        rw [List.mem_map]
        constructor
        · rintro ⟨⟨r1, j1⟩, hmem, rfl⟩
          rcases List.mem_filter.mp hmem with ⟨hmem2, heq2⟩
          have : r1 = best := by simpa using heq2
          rw [← this]
          exact hmem2
        · intro hmem
          exact ⟨(best, k), List.mem_filter.mpr ⟨hmem, by simp⟩, rfl⟩
      refine ⟨?_, ?_⟩
      · rw [heq]
        constructor
        · intro hx; cases hx
        · intro hall
          rcases hranks_mem.mp (List.mem_cons_self _ _) with ⟨k, hk, -, hck⟩
          rw [hall _ (getD_mem_of_lt hk)] at hck
          cases hck
      · intro j hj
        rw [heq, Option.some.injEq] at hj
        subst hj
        set cands := (((r0, j0) :: rest).filter (fun p => p.1 == best)).map
          Prod.snd with hcandsdef
        have hj_mem : cands.foldl max 0 ∈ cands := by
          rcases foldl_max_mem cands 0 with h | h
          · rcases hbest_wit with ⟨jb, hjb⟩
            have hjb_c : jb ∈ cands := hcands_iff.mpr hjb
            have hle : jb ≤ cands.foldl max 0 := mem_le_foldl_max _ _ _ hjb_c
            rw [h] at hle
            have hz : jb = 0 := by omega
            rw [h, ← hz]
            exact hjb_c
          · exact h
        have hj_ranks := hcands_iff.mp hj_mem
        rcases hranks_mem.mp hj_ranks with ⟨k, hk, hjk, hck⟩
        subst hjk
        refine ⟨hk, best, hck, ?_, ?_⟩
        · intro k2 r' hk2 hck2
          exact hbest_le (hranks_mem.mpr ⟨k2, hk2, rfl, hck2⟩)
        · intro k2 hgt hk2 hck2
          have hmem2 : (best, k2) ∈ (r0, j0) :: rest :=
            hranks_mem.mpr ⟨k2, hk2, rfl, hck2⟩
          have hc2 : k2 ∈ cands := hcands_iff.mpr hmem2
          have hle2 := mem_le_foldl_max cands 0 k2 hc2
          omega

/-! ### Row matcher: characterization -/

theorem eq_empty_of_data_nil {s : String} (h : s.data = []) : s = "" := by
  cases s with
  | mk l =>
    cases h
    rfl

theorem data_ne_of_ne_empty {s : String} (h : s ≠ "") : s.data ≠ [] :=
  fun hd => h (eq_empty_of_data_nil hd)

theorem pySubstr_empty_row {target : String} (h : target ≠ "") :
    pySubstr target.data (_norm_name (joinRow [])).data = false := by
  have hj : joinRow [] = "" := rfl
  rw [hj]
  have hn : _norm_name "" = "" := rfl
  rw [hn]
  cases hd : target.data with
  | nil => exact absurd (eq_empty_of_data_nil hd) h
  | cons c rest =>
    show (c :: rest).isEmpty = false
    rfl

theorem matchRowFrom_eq_some {target : String} (ht : target ≠ "") :
    ∀ {l : List (List String)} {i0 i : Nat} {row : List String},
      matchRowFrom target l i0 = some (i, row) ↔
        ∃ k, k < l.length ∧ i = i0 + k ∧ row = l.getD k [] ∧
          pySubstr target.data (_norm_name (joinRow row)).data = true ∧
          ∀ m, m < k →
            pySubstr target.data (_norm_name (joinRow (l.getD m []))).data =
              false := by
  intro l
  induction l with
  | nil => simp [matchRowFrom]
  | cons r rs ih =>
    intro i0 i row
    unfold matchRowFrom
    by_cases hr : r = []
    · rw [if_pos hr]
      rw [ih]
      constructor
      · rintro ⟨k, hk, rfl, rfl, hsub, hmin⟩
        refine ⟨k + 1, by simpa using hk, by omega, by simp, hsub, ?_⟩
        intro m hm
        cases m with
        | zero =>
          rw [hr]
          simpa using pySubstr_empty_row ht
        | succ m' => simpa using hmin m' (by omega)
      · rintro ⟨k, hk, rfl, rfl, hsub, hmin⟩
        cases k with
        | zero =>
          rw [List.getD_cons_zero, hr] at hsub
          rw [pySubstr_empty_row ht] at hsub
          cases hsub
        | succ k' =>
          refine ⟨k', by simpa using hk, by omega, by simp, hsub, ?_⟩
          intro m hm
          simpa using hmin (m + 1) (by omega)
    · rw [if_neg hr]
      by_cases hsubr :
          pySubstr target.data (_norm_name (joinRow r)).data = true
      · rw [if_pos ⟨ht, hsubr⟩]
        constructor
        · intro h
          rw [Option.some.injEq, Prod.mk.injEq] at h
          obtain ⟨h1, h2⟩ := h
          subst h1
          subst h2
          exact ⟨0, by simp, by omega, by simp, hsubr,
            fun m hm => absurd hm (by omega)⟩
        · rintro ⟨k, hk, rfl, rfl, hsub, hmin⟩
          cases k with
          | zero => simp
          | succ k' =>
            have := hmin 0 (by omega)
            rw [List.getD_cons_zero] at this
            rw [this] at hsubr
            cases hsubr
      · rw [if_neg (by rintro ⟨-, h2⟩; exact hsubr h2)]
        rw [ih]
        constructor
        · rintro ⟨k, hk, rfl, rfl, hsub, hmin⟩
          refine ⟨k + 1, by simpa using hk, by omega, by simp, hsub, ?_⟩
          intro m hm
          cases m with
          | zero => simpa using (by simpa using hsubr)
          | succ m' => simpa using hmin m' (by omega)
        · rintro ⟨k, hk, rfl, rfl, hsub, hmin⟩
          cases k with
          | zero =>
            rw [List.getD_cons_zero] at hsub
            exact absurd hsub hsubr
          | succ k' =>
            refine ⟨k', by simpa using hk, by omega, by simp, hsub, ?_⟩
            intro m hm
            simpa using hmin (m + 1) (by omega)

theorem matchRowFrom_eq_none {target : String} (ht : target ≠ "") :
    ∀ {l : List (List String)} {i0 : Nat},
      matchRowFrom target l i0 = none ↔
        ∀ k, k < l.length →
          pySubstr target.data (_norm_name (joinRow (l.getD k []))).data =
            false := by
  intro l
  induction l with
  | nil => simp [matchRowFrom]
  | cons r rs ih =>
    intro i0
    unfold matchRowFrom
    by_cases hr : r = []
    · rw [if_pos hr, ih]
      constructor
      · intro hall k hk
        cases k with
        | zero =>
          rw [List.getD_cons_zero, hr]
          exact pySubstr_empty_row ht
        | succ k' => simpa using hall k' (by simpa using hk)
      · intro hall k hk
        simpa using hall (k + 1) (by simpa using hk)
    · rw [if_neg hr]
      by_cases hsubr :
          pySubstr target.data (_norm_name (joinRow r)).data = true
      · rw [if_pos ⟨ht, hsubr⟩]
        constructor
        · intro h; cases h
        · intro hall
          have := hall 0 (by simp)
          rw [List.getD_cons_zero] at this
          rw [this] at hsubr
          cases hsubr
      · rw [if_neg (by rintro ⟨-, h2⟩; exact hsubr h2), ih]
        constructor
        · intro hall k hk
          cases k with
          | zero =>
            rw [List.getD_cons_zero]
            simpa using hsubr
          | succ k' => simpa using hall k' (by simpa using hk)
        · intro hall k hk
          simpa using hall (k + 1) (by simpa using hk)

theorem getD_drop {l : List (List String)} {n k : Nat} :
    (l.drop n).getD k [] = l.getD (n + k) [] := by
  simp [List.getD_eq_getElem?_getD, List.getElem?_drop]

/-- Claim C6: the Row Matcher scans rows strictly after the header row
in ascending order, joins each row's cells with spaces, normalizes the
join with the strict name normalizer, and returns the first row for
which the normalized target is a non-empty substring, scanning no
further; it returns absent when no row matches, and a target that
normalizes to the empty string never matches any row. -/
theorem row_matcher_spec (rows : List (List String)) (hdr : Nat)
    (target : String) :
    (∀ i row,
      matchRowFrom target (rows.drop (hdr + 1)) (hdr + 1) = some (i, row) →
      hdr < i ∧ i < rows.length ∧ row = rows.getD i [] ∧ target ≠ "" ∧
      pySubstr target.data (_norm_name (joinRow row)).data = true ∧
      ∀ j, hdr < j → j < i →
        pySubstr target.data (_norm_name (joinRow (rows.getD j []))).data =
          false) ∧
    (target ≠ "" →
      matchRowFrom target (rows.drop (hdr + 1)) (hdr + 1) = none →
      ∀ j, hdr < j → j < rows.length →
        pySubstr target.data (_norm_name (joinRow (rows.getD j []))).data =
          false) ∧
    (target = "" →
      matchRowFrom target (rows.drop (hdr + 1)) (hdr + 1) = none) := by
  refine ⟨?_, ?_, ?_⟩
  · intro i row hm
    have ht : target ≠ "" := by
      intro he
      subst he
      rw [matchRowFrom_empty_target] at hm
      cases hm
    rcases (matchRowFrom_eq_some ht).mp hm with ⟨k, hk, rfl, hrow, hsub, hmin⟩
    rw [List.length_drop] at hk
    refine ⟨by omega, by omega, by rwa [getD_drop] at hrow, ht, hsub, ?_⟩
    intro j hj1 hj2
    have := hmin (j - (hdr + 1)) (by omega)
    rwa [getD_drop, show hdr + 1 + (j - (hdr + 1)) = j by omega] at this
  · intro ht hm j hj1 hj2
    have := (matchRowFrom_eq_none ht).mp hm (j - (hdr + 1))
      (by rw [List.length_drop]; omega)
    rwa [getD_drop, show hdr + 1 + (j - (hdr + 1)) = j by omega] at this
  · intro ht
    subst ht
    exact matchRowFrom_empty_target _ _

/-! ### Multi-source aggregation -/

theorem zipWith_getD {α β γ : Type} (f : α → β → γ) (da : α) (db : β)
    (dc : γ) : ∀ (l1 : List α) (l2 : List β) (i : Nat),
      l2.length = l1.length → i < l1.length →
      (List.zipWith f l1 l2).getD i dc = f (l1.getD i da) (l2.getD i db) := by
  intro l1
  induction l1 with
  | nil => intro l2 i _ hi; cases hi
  | cons a t ih =>
    intro l2 i hlen hi
    cases l2 with
    | nil => cases hlen
    | cons b t2 =>
      cases i with
      | zero => simp
      | succ i' =>
        simp only [List.zipWith_cons_cons, List.getD_cons_succ]
        exact ih t2 i' (by simpa using hlen) (by simpa using hi)

/-- Claim C9: a multi-source run over N configured sources yields
exactly one entry per source, in order: a failing source becomes an
error-tagged entry, a non-failing source gets the same entry it would
get when run alone, and no entry is dropped or duplicated — one source's
fetch failure never alters the entries of the other sources. (The
network fetch is the external collaborator, so each source's fetch
outcome is passed in as a value.) -/
theorem multi_source_spec (surname : String) (sheets : List SheetCfg)
    (fetches : List (Except String (List (List String))))
    (hlen : fetches.length = sheets.length) :
    (api_scores surname sheets fetches).length = sheets.length ∧
    (∀ i, i < sheets.length →
      (api_scores surname sheets fetches).getD i ⟨"", none, false, none⟩ =
        scoreEntry surname (sheets.getD i ⟨"", false, false, false⟩)
          (fetches.getD i (Except.error ""))) ∧
    (∀ i, i < sheets.length →
      (api_scores surname sheets fetches).getD i ⟨"", none, false, none⟩ =
        (api_scores surname [sheets.getD i ⟨"", false, false, false⟩]
            [fetches.getD i (Except.error "")]).getD 0
          ⟨"", none, false, none⟩) ∧
    (∀ i e, i < sheets.length →
      fetches.getD i (Except.error "") = Except.error e →
      (api_scores surname sheets fetches).getD i ⟨"", none, false, none⟩ =
        ⟨(sheets.getD i ⟨"", false, false, false⟩).name, none, false,
          some e⟩) := by
  have hentry : ∀ i, i < sheets.length →
      (api_scores surname sheets fetches).getD i ⟨"", none, false, none⟩ =
        scoreEntry surname (sheets.getD i ⟨"", false, false, false⟩)
          (fetches.getD i (Except.error "")) := by
    intro i hi
    exact zipWith_getD (scoreEntry surname) ⟨"", false, false, false⟩
      (Except.error "") ⟨"", none, false, none⟩ sheets fetches i hlen hi
  refine ⟨?_, hentry, ?_, ?_⟩
  · unfold api_scores
    rw [List.length_zipWith, hlen, Nat.min_self]
  · intro i hi
    rw [hentry i hi]
    rfl
  · intro i e hi hfe
    rw [hentry i hi, hfe]
    rfl

/-- Witness for C9: two sources, the second failing; the run yields two
entries, the first computed from its own grid and the second
error-tagged. -/
theorem multi_source_spec_witness :
    (api_scores "Иванов" [⟨"A", false, true, false⟩, ⟨"B", false, true, false⟩]
        [Except.ok [["ФИО"], ["Иванов", "5"]], Except.error "boom"]).length =
      2 ∧
    (api_scores "Иванов" [⟨"A", false, true, false⟩, ⟨"B", false, true, false⟩]
        [Except.ok [["ФИО"], ["Иванов", "5"]], Except.error "boom"]).getD 1
      ⟨"", none, false, none⟩ = ⟨"B", none, false, some "boom"⟩ :=
  ⟨(multi_source_spec "Иванов"
      [⟨"A", false, true, false⟩, ⟨"B", false, true, false⟩]
      [Except.ok [["ФИО"], ["Иванов", "5"]], Except.error "boom"] rfl).1,
    (multi_source_spec "Иванов"
      [⟨"A", false, true, false⟩, ⟨"B", false, true, false⟩]
      [Except.ok [["ФИО"], ["Иванов", "5"]], Except.error "boom"] rfl).2.2.2
      1 "boom" (by simp) rfl⟩

/-- Witness for C4 on the spec's tie-break header: rank-1 ties at
columns 0 and 1 resolve to the rightmost, index 1. -/
theorem total_locator_spec_witness :
    1 < (["Итог", "ИТОГ (мод.1)", "лаба1"] : List String).length ∧
    ∃ r, cellRank ((["Итог", "ИТОГ (мод.1)", "лаба1"] : List String).getD 1 "") =
        some r ∧
      (∀ k r', k < (["Итог", "ИТОГ (мод.1)", "лаба1"] : List String).length →
        cellRank ((["Итог", "ИТОГ (мод.1)", "лаба1"] : List String).getD k "") =
          some r' → r ≤ r') ∧
      (∀ k, 1 < k → k < (["Итог", "ИТОГ (мод.1)", "лаба1"] : List String).length →
        cellRank ((["Итог", "ИТОГ (мод.1)", "лаба1"] : List String).getD k "") ≠
          some r) :=
  (total_locator_spec ["Итог", "ИТОГ (мод.1)", "лаба1"]).2 1 (by decide)

/-- Witness for C5 on a grid whose second row carries the identity
marker. -/
theorem header_locator_spec_witness :
    _find_header_row [["x"], ["ФИО"]] <
      ([["x"], ["ФИО"]] : List (List String)).length ∧
    _find_header_row [["x"], ["ФИО"]] < 10 ∧
    headerPred (([["x"], ["ФИО"]] : List (List String)).getD
      (_find_header_row [["x"], ["ФИО"]]) []) = true ∧
    ∀ j, j < _find_header_row [["x"], ["ФИО"]] →
      headerPred (([["x"], ["ФИО"]] : List (List String)).getD j []) = false :=
  (header_locator_spec [["x"], ["ФИО"]]).1 ⟨1, by decide, by decide, by decide⟩

/-- Witness for C6 on a two-row grid with header row 0. -/
theorem row_matcher_spec_witness :
    0 < 1 ∧ 1 < ([["ФИО"], ["Иванов"]] : List (List String)).length ∧
    ["Иванов"] = ([["ФИО"], ["Иванов"]] : List (List String)).getD 1 [] ∧
    ("иванов" : String) ≠ "" ∧
    pySubstr "иванов".data (_norm_name (joinRow ["Иванов"])).data = true ∧
    ∀ j, 0 < j → j < 1 →
      pySubstr "иванов".data (_norm_name (joinRow
        (([["ФИО"], ["Иванов"]] : List (List String)).getD j []))).data =
        false :=
  (row_matcher_spec [["ФИО"], ["Иванов"]] 0 "иванов").1 1 ["Иванов"] (by decide)

end DedlinesApp

